import Mathlib

/-!
Verification of Bin2C (`src/bin2c.c`, the current revision of `main` at
lines 354-592).  The program is embedded shallowly: the command-line
parsing loop, the default-name and symbol-name derivation, the byte
loader, and the word-packing/formatting/emission loop are translated to
Lean functions over `List Nat` byte buffers and `String` arguments.
Machine integers are modelled as `Nat`/`Int` with explicit reduction
modulo 2^32 where the C code relies on `unsigned int` conversion.
File output is modelled as a list of write actions produced by `run`.
-/

namespace Bin2C

/-- The NUL character, used to model C string indexing reaching the
terminator. -/
def nulChar : Char := Char.ofNat 0

/-- C `isdigit` for the ASCII range (the "C" locale). -/
def isdigit (c : Char) : Bool := decide ('0' ≤ c) && decide (c ≤ '9')

/-- C `isalpha` for the ASCII range (the "C" locale). -/
def isalpha (c : Char) : Bool :=
  (decide ('a' ≤ c) && decide (c ≤ 'z')) || (decide ('A' ≤ c) && decide (c ≤ 'Z'))

/-- C `isalnum` for the ASCII range (the "C" locale). -/
def isalnum (c : Char) : Bool := isalpha c || isdigit c

/-- Value of the maximal leading run of decimal digits, accumulator style
(the digit-consuming loop inside C `atoi`). -/
def digitsVal : Nat → List Char → Nat
  | acc, [] => acc
  | acc, c :: r => if isdigit c then digitsVal (10 * acc + (c.toNat - ('0').toNat)) r else acc

/-- C `atoi`: optional sign followed by a leading run of digits; zero when
the string has no leading digits.  (Leading-whitespace skipping is not
modelled; no claim involves arguments with leading whitespace.) -/
def atoi (s : String) : Int :=
  match s.data with
  | '-' :: r => -(digitsVal 0 r : Int)
  | '+' :: r => (digitsVal 0 r : Int)
  | r => (digitsVal 0 r : Int)

/-- Conversion of a C `int` value to `unsigned int` (reduction modulo
2^32), as happens when `atoi`'s result is assigned to `bitsize`. -/
def toCUInt (i : Int) : Nat := (i % ((2 : Int) ^ 32)).toNat

/-- `strncmp(s, p, strlen p) == 0` for a pattern `p` that contains no NUL:
the first `strlen p` characters of `s` match `p` exactly. -/
def strncmp0 (s p : String) : Bool := decide (s.data.take p.data.length = p.data)

/-- `s[j]` in C: the character at index `j`, or NUL at/after the end. -/
def charAtNul (s : String) (j : Nat) : Char := s.data.getD j nulChar

/-- The local variables of `main` that the argument-parsing loop
(lines 372-413) assigns.  Field names follow the C locals; `use_macro`
is renamed `use_define` because of naming limits of this development. -/
structure Opts where
  f_inputname : Option String
  f_outputname : Option String
  symbolname : Option String
  is_appending : Bool
  is_textfile : Bool
  is_mutable : Bool
  use_define : Bool
  zero_terminate : Bool
  bitsize : Nat
deriving DecidableEq

/-- The initial values of `main`'s locals (lines 357-367); in particular
`bitsize = 8`. -/
def Opts.init : Opts :=
  { f_inputname := none
    f_outputname := none
    symbolname := none
    is_appending := false
    is_textfile := false
    is_mutable := false
    use_define := false
    zero_terminate := false
    bitsize := 8 }

/-- The distinct fatal exits reachable from the argument-parsing loop:
`usage` is `about(NULL)`, `invalidOption` is `about(argv[idx])`,
`invalidBits` is the `fatal("Invalid bit size ...")` call,
`tooManyFiles` and `noInput` are the corresponding `fatal` calls. -/
inductive FatalErr where
  | usage
  | invalidOption
  | invalidBits
  | tooManyFiles
  | noInput
deriving DecidableEq

/-- The argument-parsing loop of `main` (lines 372-413), transcribed
branch by branch in source order.  `about` and `fatal` both terminate
the process with status 1, modelled by `Except.error`.  Note the loop
has no final `else` for an argument that starts with `-` but matches no
recognized option: such an argument is skipped. -/
def parseLoop (args : List String) (o : Opts) : Except FatalErr Opts :=
  match args with
  | [] => .ok o
  | t :: rest =>
    if charAtNul t 0 = '-' then
      if t = "-a" ∨ t = "--append" then
        parseLoop rest { o with is_appending := true }
      else if strncmp0 t ("-b") ∨ strncmp0 t ("--bits") then
        let j : Nat := if charAtNul t 1 = '-' then 6 else 2
        if isdigit (charAtNul t j) then
          let b := toCUInt (atoi (String.mk (t.data.drop j)))
          if b ≠ 8 ∧ b ≠ 16 ∧ b ≠ 32 then .error .invalidBits
          else parseLoop rest { o with bitsize := b }
        else if charAtNul t j = nulChar then
          match rest with
          | v :: rest2 =>
            let b := toCUInt (atoi v)
            if b ≠ 8 ∧ b ≠ 16 ∧ b ≠ 32 then .error .invalidBits
            else parseLoop rest2 { o with bitsize := b }
          | [] => .error .invalidOption
        else .error .invalidOption
      else if t = "-d" ∨ t = "--define" then
        parseLoop rest { o with use_define := true }
      else if t = "-h" ∨ t = "--help" ∨ t = "-?" then
        .error .usage
      else if strncmp0 t ("-l") ∨ strncmp0 t ("--label") then
        let j : Nat := if charAtNul t 1 = '-' then 7 else 2
        if charAtNul t j ≠ nulChar then
          parseLoop rest { o with symbolname := some (String.mk (t.data.drop j)) }
        else
          match rest with
          | v :: rest2 => parseLoop rest2 { o with symbolname := some v }
          | [] => .error .invalidOption
      else if t = "-m" ∨ t = "--mutable" then
        parseLoop rest { o with is_mutable := true }
      else if t = "-t" ∨ t = "--text" then
        parseLoop rest { o with is_textfile := true }
      else if t = "-z" ∨ t = "--zero" then
        parseLoop rest { o with zero_terminate := true }
      else
        parseLoop rest o
    else
      if o.f_inputname = none then parseLoop rest { o with f_inputname := some t }
      else if o.f_outputname = none then parseLoop rest { o with f_outputname := some t }
      else .error .tooManyFiles

/-- Unfolding of one iteration of the parsing loop. -/
theorem parseLoop_cons (t : String) (rest : List String) (o : Opts) :
    parseLoop (t :: rest) o =
    (if charAtNul t 0 = '-' then
      if t = "-a" ∨ t = "--append" then
        parseLoop rest { o with is_appending := true }
      else if strncmp0 t ("-b") ∨ strncmp0 t ("--bits") then
        let j : Nat := if charAtNul t 1 = '-' then 6 else 2
        if isdigit (charAtNul t j) then
          let b := toCUInt (atoi (String.mk (t.data.drop j)))
          if b ≠ 8 ∧ b ≠ 16 ∧ b ≠ 32 then .error .invalidBits
          else parseLoop rest { o with bitsize := b }
        else if charAtNul t j = nulChar then
          match rest with
          | v :: rest2 =>
            let b := toCUInt (atoi v)
            if b ≠ 8 ∧ b ≠ 16 ∧ b ≠ 32 then .error .invalidBits
            else parseLoop rest2 { o with bitsize := b }
          | [] => .error .invalidOption
        else .error .invalidOption
      else if t = "-d" ∨ t = "--define" then
        parseLoop rest { o with use_define := true }
      else if t = "-h" ∨ t = "--help" ∨ t = "-?" then
        .error .usage
      else if strncmp0 t ("-l") ∨ strncmp0 t ("--label") then
        let j : Nat := if charAtNul t 1 = '-' then 7 else 2
        if charAtNul t j ≠ nulChar then
          parseLoop rest { o with symbolname := some (String.mk (t.data.drop j)) }
        else
          match rest with
          | v :: rest2 => parseLoop rest2 { o with symbolname := some v }
          | [] => .error .invalidOption
      else if t = "-m" ∨ t = "--mutable" then
        parseLoop rest { o with is_mutable := true }
      else if t = "-t" ∨ t = "--text" then
        parseLoop rest { o with is_textfile := true }
      else if t = "-z" ∨ t = "--zero" then
        parseLoop rest { o with zero_terminate := true }
      else
        parseLoop rest o
    else
      if o.f_inputname = none then parseLoop rest { o with f_inputname := some t }
      else if o.f_outputname = none then parseLoop rest { o with f_outputname := some t }
      else .error .tooManyFiles) := by
  rw [parseLoop.eq_def]

/-- A path-separator character (the set `"\\/"` passed to `strpbrk`). -/
def isSep (c : Char) : Bool := c = '\\' ∨ c = '/'

/-- Index of the last occurrence of `ch` (C `strrchr`), if any. -/
def strrchrIdx : List Char → Char → Option Nat
  | [], _ => none
  | c :: r, ch =>
    match strrchrIdx r ch with
    | some i => some (i + 1)
    | none => if c = ch then some 0 else none

/-- Truncating a C string at the position `strrchr(s, '.')` returned
(removing the extension), or leaving it alone when there is no `'.'`. -/
def dropExt (l : List Char) : List Char :=
  match strrchrIdx l '.' with
  | some i => l.take i
  | none => l

/-- The loop `while (strpbrk(p, "\\/") != NULL) p = strpbrk(p, "\\/") + 1;`
(lines 432-433): the suffix after the last path separator. -/
def afterLastSep : List Char → List Char
  | [] => []
  | c :: r => if isSep c ∨ r.any isSep then afterLastSep r else c :: r

/-- The default output file name (lines 418-428): copy the input name,
remove the extension only when `strrchr` finds a `'.'` AND the name
contains no path separator, then append `".h"`. -/
def defaultOutputName (inp : String) : String :=
  let l := inp.data
  match strrchrIdx l '.' with
  | some i =>
    if l.any isSep then String.mk (l ++ (".h").data)
    else String.mk (l.take i ++ (".h").data)
  | none => String.mk (l ++ (".h").data)

/-- The label-template substitution loop (lines 456-469): `"$*"` is
replaced by the base name, `"$@"` by the full name, every other
character is copied. -/
def substTemplate (basename fullname : List Char) : List Char → List Char
  | [] => []
  | '$' :: '*' :: r => basename ++ substTemplate basename fullname r
  | '$' :: '@' :: r => fullname ++ substTemplate basename fullname r
  | c :: r => c :: substTemplate basename fullname r

/-- One step of the sanitization `while` loop (lines 475-479): keep a
character that is alphanumeric or `'_'`, replace anything else. -/
def keepTail (c : Char) : Char := if isalnum c || c = '_' then c else '_'

/-- The first-character fix (lines 473-474): keep a letter or `'_'`,
replace anything else. -/
def keepFirst (c : Char) : Char := if isalpha c || c = '_' then c else '_'

/-- Symbol-name sanitization (lines 472-479): the first character is
fixed up with `keepFirst`; then the `while` loop runs `keepTail` over
every character starting again from the first.  The C code's behaviour
on an empty symbol name is undefined (it overwrites the NUL terminator),
so that case is excluded by hypotheses wherever it matters. -/
def sanitize : List Char → List Char
  | [] => []
  | c :: r => (keepFirst c :: r).map keepTail

/-- Resolution of the array symbol name (lines 430-479): full name =
input name after the last separator, base name = full name without
extension, template defaults to `"$*"`, substitute, then sanitize. -/
def resolveSymbol (symbolname : Option String) (inputname : String) : String :=
  let fullname := afterLastSep inputname.data
  let basename := dropExt fullname
  let tmpl := (symbolname.getD ("$*")).data
  String.mk (sanitize (substTemplate basename fullname tmpl))

/-- The input loader (lines 486-494): `file_size` is incremented when
`zero_terminate` is set, the buffer comes from `calloc` (zero-filled),
and `fread` fills only the file's own bytes, so the extra byte stays 0. -/
def loadBuffer (fileBytes : List Nat) (zero_terminate : Bool) : List Nat :=
  fileBytes ++ (if zero_terminate then [0] else [])

/-- `array_size` (line 532): `(file_size + ((bitsize >> 3) - 1)) / (bitsize >> 3)`. -/
def array_size (bitsize len : Nat) : Nat :=
  (len + ((bitsize >>> 3) - 1)) / (bitsize >>> 3)

/-- One `fprintf` of the emission loop: a separating comma, a line break
with its indent, or one array element (carrying the word value). -/
inductive Tok where
  | comma : Tok
  | newline : Tok
  | word : Nat → Tok
deriving DecidableEq

/-- The separator output of one loop iteration, in source order: the
comma when `need_comma`, then the line break when `need_newline`
(lines 545-548 and 561-564). -/
def sepToks (nc nl : Bool) : List Tok :=
  (if nc then [Tok.comma] else []) ++ (if nl then [Tok.newline] else [])

/-- The packing-and-emission loop (lines 540-559) followed by the final
partial-word emission (lines 560-571).  State: current byte index `idx`,
accumulator `word`, filled `bits`, `need_comma`, `need_newline`.  Each
byte is or-ed into the accumulator at offset `bits`; a word is emitted
when `bits` reaches `bitsize`, and `need_newline` is recomputed as
`((idx + 1) & 0x0f) == 0`. -/
def emitLoop (bitsize : Nat) (buf : List Nat) (idx word bits : Nat) (nc nl : Bool) :
    List Tok :=
  match buf with
  | [] => if bits > 0 then sepToks nc nl ++ [Tok.word word] else []
  | b :: rest =>
    let word2 := word ||| (b <<< bits)
    let bits2 := bits + 8
    if bits2 = bitsize then
      sepToks nc nl ++ Tok.word word2 ::
        emitLoop bitsize rest (idx + 1) 0 0 true (decide (((idx + 1) &&& 0x0f) = 0))
    else
      emitLoop bitsize rest (idx + 1) word2 bits2 nc nl

/-- The emission loop started from `main`'s initial state:
`need_comma = false`, `need_newline = true`, empty accumulator. -/
def emitToks (bitsize : Nat) (buf : List Nat) : List Tok :=
  emitLoop bitsize buf 0 0 0 false true

/-- The value carried by an element token. -/
def wordVal : Tok → Option Nat
  | .word w => some w
  | _ => none

/-- The sequence of array-element values the loop prints, in order. -/
def wordsOf (bitsize : Nat) (buf : List Nat) : List Nat :=
  (emitToks bitsize buf).filterMap wordVal

/-- Lowercase hexadecimal digit, as printed by `%x`. -/
def hexDigitChar (n : Nat) : Char :=
  if n < 10 then Char.ofNat (('0').toNat + n) else Char.ofNat (('a').toNat + (n - 10))

/-- Digit extraction with a fuel bound (`n` itself strictly bounds the
digit count, so `n + 1` units of fuel always suffice). -/
def hexCharsGo (fuel n : Nat) : List Char :=
  match fuel with
  | 0 => []
  | fuel + 1 =>
    if n < 16 then [hexDigitChar n]
    else hexCharsGo fuel (n / 16) ++ [hexDigitChar (n % 16)]

/-- The digits `%x` prints for `n` (most significant first; `"0"` for 0). -/
def hexChars (n : Nat) : List Char := hexCharsGo (n + 1) n

/-- `printf("0x%0Wx", n)`: the digits, zero-padded on the left to at
least `width` digits, after a literal `"0x"`. -/
def printfHex (width n : Nat) : String :=
  String.mk ('0' :: 'x' :: (List.replicate (width - (hexChars n).length) '0' ++ hexChars n))

/-- The text of one emission token: `", "`, `"\n\t"`, or the element in
the fixed hex width selected by the `bitsize` if-chain (lines 549-554);
no output at all for a `bitsize` outside {8,16,32} (unreachable, the
code asserts the contrary at line 531). -/
def tokStr (bitsize : Nat) : Tok → String
  | .comma => ", "
  | .newline => "\n\t"
  | .word w =>
    if bitsize = 8 then printfHex 2 w
    else if bitsize = 16 then printfHex 4 w
    else if bitsize = 32 then printfHex 8 w
    else ""

/-- The text between the braces of the array declaration. -/
def bodyText (bitsize : Nat) (buf : List Nat) : String :=
  String.join ((emitToks bitsize buf).map (tokStr bitsize))

/-- The full text written to the output file (lines 527-576, without the
`USE_BZ2` block): preamble unless appending, declaration head with
`array_size` in the brackets, the body, and the size line carrying the
same `array_size`, as a `#define` or a `const unsigned int`. -/
def outputText (o : Opts) (sym : String) (buf : List Nat) : String :=
  let asz := array_size o.bitsize buf.length
  (if ¬o.is_appending then "/* generated by Bin2C */\n#include <stdint.h>" else "") ++
  "\n\n" ++
  (if ¬o.is_mutable then "const " else "") ++
  "uint" ++ toString o.bitsize ++ "_t " ++ sym ++ "[" ++ toString asz ++ "] = \x7b" ++
  bodyText o.bitsize buf ++
  "\n\x7d;\n\n" ++
  (if o.use_define then "#define " ++ sym ++ "_size " ++ toString asz ++ "\n"
   else "const unsigned int " ++ sym ++ "_size = " ++ toString asz ++ ";\n")

/-- A write to the file system: truncating (`fopen "wt"`) or appending
(`fopen "a+t"`). -/
inductive WriteAct where
  | overwrite : String → String → WriteAct
  | appendTo : String → String → WriteAct
deriving DecidableEq

/-- The whole of `main` (lines 354-592): parse the arguments, derive the
default output and symbol names, read the input file (modelled by the
map `fs` from names to byte contents), and write the output file.  The
result is the exit status together with the writes performed; every
fatal exit happens before the output file is opened, hence the empty
write list on every error path. -/
def run (args : List String) (fs : String → Option (List Nat)) : Nat × List WriteAct :=
  if args = [] then (1, [])
  else
    match parseLoop args Opts.init with
    | .error _ => (1, [])
    | .ok o =>
      match o.f_inputname with
      | none => (1, [])
      | some inp =>
        let outname :=
          match o.f_outputname with
          | some s => s
          | none => defaultOutputName inp
        let sym := resolveSymbol o.symbolname inp
        match fs inp with
        | none => (1, [])
        | some bytes =>
          let buf := loadBuffer bytes o.zero_terminate
          let txt := outputText o sym buf
          (0, [if o.is_appending then WriteAct.appendTo outname txt
               else WriteAct.overwrite outname txt])

/-! ### Specification-side definitions

The following definitions transcribe the spec's own words (grouping into
`w/8`-byte chunks, little-endian value, little-endian unpacking, and the
row-layout rule) and are compared with the source-derived functions
above by refinement theorems. -/

/-- Modelled from the spec: the byte buffer split into consecutive
groups of `d` bytes, the final group possibly shorter. -/
def groupsOf (d : Nat) (l : List Nat) : List (List Nat) :=
  match l with
  | [] => []
  | x :: xs => (x :: xs.take (d - 1)) :: groupsOf d (xs.drop (d - 1))
termination_by l.length
decreasing_by simp_wf; omega

/-- Modelled from the spec: the little-endian value of a byte group
(first byte least significant). -/
def leVal : List Nat → Nat
  | [] => 0
  | b :: r => b + 256 * leVal r

/-- Modelled from the spec: the `d` little-endian bytes of a word. -/
def leBytes (d : Nat) (w : Nat) : List Nat :=
  match d with
  | 0 => []
  | d + 1 => (w % 256) :: leBytes d (w / 256)

/-- Modelled from the spec: concatenation of the byte groups of a word
sequence. -/
def flattenBytes (d : Nat) : List Nat → List Nat
  | [] => []
  | w :: ws => leBytes d w ++ flattenBytes d ws

/-- Modelled from the spec: unpacking — split every word into its `d`
little-endian bytes and drop the zero padding of the final short word by
keeping only the original `len` bytes. -/
def unpackWords (d : Nat) (ws : List Nat) (len : Nat) : List Nat :=
  (flattenBytes d ws).take len

/-- Modelled from the spec: the layout rule.  Word number `k` (counting
from 0) is preceded by a comma iff `k > 0` and by a line break (plus one
indent) iff the `k * d` bytes consumed before it are a multiple of 16. -/
def specLayout (d k : Nat) : List Nat → List Tok
  | [] => []
  | w :: ws =>
    (if k > 0 then [Tok.comma] else []) ++
    (if k * d % 16 = 0 then [Tok.newline] else []) ++
    Tok.word w :: specLayout d (k + 1) ws

/-- Intermediate form for the refinement proofs: the emission loop
restricted to whole groups. -/
def emitGroups (idx : Nat) (nc nl : Bool) : List (List Nat) → List Tok
  | [] => []
  | g :: gs =>
    sepToks nc nl ++ Tok.word (leVal g) ::
      emitGroups (idx + g.length) true (decide ((idx + g.length) % 16 = 0)) gs

/-! ### Bitwise helper lemmas -/

/-- Or-ing a value shifted past the bits already in the accumulator is
the same as adding it: the step `word |= buf[idx] << bits`. -/
theorem or_shift_eq_add (a b k : Nat) (h : a < 2 ^ k) :
    a ||| (b <<< k) = a + b * 2 ^ k := by
  rw [Nat.shiftLeft_eq]
  apply Nat.eq_of_testBit_eq
  intro i
  rw [Nat.testBit_or]
  have hadd : a + b * 2 ^ k = 2 ^ k * b + a := by ring
  rw [hadd, Nat.testBit_mul_pow_two_add b h i, Nat.mul_comm b (2 ^ k),
    Nat.testBit_mul_pow_two]
  rcases Nat.lt_or_ge i k with hi | hi
  · simp [Nat.not_le_of_lt hi, hi]
  · simp [hi,
      Nat.testBit_lt_two_pow (Nat.lt_of_lt_of_le h (Nat.pow_le_pow_right (by decide) hi))]

/-- `n & 0x0f` is `n % 16`. -/
theorem and_fifteen (n : Nat) : n &&& 0x0f = n % 16 := by
  simpa using Nat.and_pow_two_sub_one_eq_mod n 4

/-! ### The emission loop consumes byte groups -/

/-- Consuming a full group of `d - j/8` further bytes emits exactly one
word whose value extends the accumulator little-endian. -/
theorem emitLoop_full_group (d : Nat) :
    ∀ (g : List Nat) (rest : List Nat) (idx word j : Nat) (nc nl : Bool),
      g.length + j = d → 0 < g.length → (∀ b ∈ g, b < 256) → word < 2 ^ (8 * j) →
      emitLoop (8 * d) (g ++ rest) idx word (8 * j) nc nl =
        sepToks nc nl ++ Tok.word (word + 2 ^ (8 * j) * leVal g) ::
          emitLoop (8 * d) rest (idx + g.length) 0 0 true
            (decide (((idx + g.length) &&& 0x0f) = 0)) := by
  intro g
  induction g with
  | nil => intro rest idx word j nc nl _ hg; simp at hg
  | cons b g ih =>
    intro rest idx word j nc nl hlen _ hb hw
    have hb0 : b < 256 := hb b (by simp)
    have hw2 : word ||| (b <<< (8 * j)) = word + b * 2 ^ (8 * j) :=
      or_shift_eq_add word b (8 * j) hw
    cases g with
    | nil =>
      have hj : 1 + j = d := by simpa using hlen
      have hbits : 8 * j + 8 = 8 * d := by omega
      simp only [List.cons_append, List.nil_append, emitLoop, hbits, if_pos rfl, hw2]
      simp [leVal, Nat.mul_comm]
    | cons b2 g2 =>
      have hbits : ¬(8 * j + 8 = 8 * d) := by
        simp only [List.length_cons] at hlen; omega
      rw [List.cons_append, emitLoop]
      simp only [if_neg hbits, hw2]
      have hrec := ih rest (idx + 1) (word + b * 2 ^ (8 * j)) (j + 1) nc nl
        (by simp only [List.length_cons] at hlen ⊢; omega) (by simp)
        (fun x hx => hb x (List.mem_cons_of_mem b hx))
        (by
          have : b * 2 ^ (8 * j) ≤ 255 * 2 ^ (8 * j) :=
            Nat.mul_le_mul_right _ (by omega)
          calc word + b * 2 ^ (8 * j) < 256 * 2 ^ (8 * j) := by omega
            _ = 2 ^ (8 * (j + 1)) := by ring
          )
      have harith : 8 * j + 8 = 8 * (j + 1) := by ring
      rw [harith, hrec]
      have hval : word + b * 2 ^ (8 * j) + 2 ^ (8 * (j + 1)) * leVal (b2 :: g2) =
          word + 2 ^ (8 * j) * leVal (b :: b2 :: g2) := by
        show _ = word + 2 ^ (8 * j) * (b + 256 * leVal (b2 :: g2))
        ring_nf
      rw [hval]
      have hidx : idx + 1 + (b2 :: g2).length = idx + (b :: b2 :: g2).length := by
        simp; omega
      rw [hidx]

/-- Reaching the end of the buffer with a partial accumulator emits it
as one final zero-padded word (lines 560-571); with an empty accumulator
nothing more is emitted. -/
theorem emitLoop_last_group (d : Nat) :
    ∀ (g : List Nat) (idx word j : Nat) (nc nl : Bool),
      g.length + j < d → (∀ b ∈ g, b < 256) → word < 2 ^ (8 * j) →
      emitLoop (8 * d) g idx word (8 * j) nc nl =
        if g.length + j = 0 then []
        else sepToks nc nl ++ [Tok.word (word + 2 ^ (8 * j) * leVal g)] := by
  intro g
  induction g with
  | nil =>
    intro idx word j nc nl _ _ _
    simp only [emitLoop, List.length_nil, Nat.zero_add, leVal]
    rcases Nat.eq_zero_or_pos j with hj | hj
    · simp [hj]
    · rw [if_pos (by omega), if_neg (by omega)]
      simp
  | cons b g ih =>
    intro idx word j nc nl hlen hb hw
    have hb0 : b < 256 := hb b (by simp)
    have hw2 : word ||| (b <<< (8 * j)) = word + b * 2 ^ (8 * j) :=
      or_shift_eq_add word b (8 * j) hw
    have hbits : ¬(8 * j + 8 = 8 * d) := by
      simp only [List.length_cons] at hlen; omega
    simp only [emitLoop, if_neg hbits, hw2]
    have harith : 8 * j + 8 = 8 * (j + 1) := by ring
    rw [harith, ih (idx + 1) (word + b * 2 ^ (8 * j)) (j + 1) nc nl
      (by simp only [List.length_cons] at hlen ⊢; omega)
      (fun x hx => hb x (List.mem_cons_of_mem b hx))
      (by
        have : b * 2 ^ (8 * j) ≤ 255 * 2 ^ (8 * j) := Nat.mul_le_mul_right _ (by omega)
        calc word + b * 2 ^ (8 * j) < 256 * 2 ^ (8 * j) := by omega
          _ = 2 ^ (8 * (j + 1)) := by ring)]
    rw [if_neg (by omega), if_neg (by simp)]
    have hval : word + b * 2 ^ (8 * j) + 2 ^ (8 * (j + 1)) * leVal g =
        word + 2 ^ (8 * j) * leVal (b :: g) := by
      show _ = word + 2 ^ (8 * j) * (b + 256 * leVal g)
      ring_nf
    rw [hval]

/-- Splitting off the first group. -/
theorem groupsOf_cons (d : Nat) (hd : 0 < d) (x : Nat) (xs : List Nat) :
    groupsOf d (x :: xs) = (x :: xs).take d :: groupsOf d ((x :: xs).drop d) := by
  rw [groupsOf]
  obtain ⟨d', rfl⟩ : ∃ d', d = d' + 1 := ⟨d - 1, by omega⟩
  simp

/-- The emission loop started at a word boundary produces exactly the
emission of the byte groups. -/
theorem emitLoop_groups (d : Nat) (hd : 0 < d) :
    ∀ (n : Nat) (l : List Nat), l.length ≤ n → (∀ b ∈ l, b < 256) →
      ∀ (idx : Nat) (nc nl : Bool),
      emitLoop (8 * d) l idx 0 0 nc nl = emitGroups idx nc nl (groupsOf d l) := by
  intro n
  induction n with
  | zero =>
    intro l hn _ idx nc nl
    have hl : l = [] := List.length_eq_zero.mp (Nat.le_zero.mp hn)
    subst hl
    simp [emitLoop, groupsOf, emitGroups]
  | succ n ih =>
    intro l hn hb idx nc nl
    match l with
    | [] => simp [emitLoop, groupsOf, emitGroups]
    | x :: xs =>
      rw [groupsOf_cons d hd x xs]
      rcases le_or_lt d (x :: xs).length with hcase | hcase
      · -- the first group is full: d bytes
        have hglen : ((x :: xs).take d).length = d := by
          simp only [List.length_take, List.length_cons]
          simp only [List.length_cons] at hcase
          omega
        have hsplit : x :: xs = (x :: xs).take d ++ (x :: xs).drop d :=
          (List.take_append_drop d (x :: xs)).symm
        have h1 := emitLoop_full_group d ((x :: xs).take d) ((x :: xs).drop d)
          idx 0 0 nc nl (by simp [hglen]) (by rw [hglen]; omega)
          (fun b hbm => hb b (List.take_subset d (x :: xs) hbm)) (by simp)
        rw [Nat.mul_zero] at h1
        rw [hsplit, h1]
        rw [emitGroups]
        have h2 := ih ((x :: xs).drop d)
          (by simp [List.length_drop]; simp at hn; omega)
          (fun b hbm => hb b (List.drop_subset d (x :: xs) hbm))
          (idx + ((x :: xs).take d).length) true
          (decide ((idx + ((x :: xs).take d).length) % 16 = 0))
        rw [and_fifteen, h2]
        simp
      · -- the whole of l is one short final group
        have htake : (x :: xs).take d = x :: xs := List.take_of_length_le (by omega)
        have hdrop : (x :: xs).drop d = [] := List.drop_eq_nil_of_le (by omega)
        have h1 := emitLoop_last_group d (x :: xs) idx 0 0 nc nl
          (by omega) hb (by simp)
        rw [Nat.mul_zero] at h1
        rw [h1, htake, hdrop]
        rw [if_neg (by simp), groupsOf, emitGroups, emitGroups]
        simp

/-- The separators contain no element token. -/
theorem sepToks_filterMap (nc nl : Bool) : (sepToks nc nl).filterMap wordVal = [] := by
  cases nc <;> cases nl <;> rfl

/-- The element values of a group emission are the group values. -/
theorem emitGroups_words :
    ∀ (gs : List (List Nat)) (idx : Nat) (nc nl : Bool),
      (emitGroups idx nc nl gs).filterMap wordVal = gs.map leVal := by
  intro gs
  induction gs with
  | nil => intro idx nc nl; rfl
  | cons g gs ih =>
    intro idx nc nl
    rw [emitGroups, List.filterMap_append, sepToks_filterMap]
    simp only [List.filterMap_cons, wordVal, ih, List.map_cons, List.nil_append]

/-- The emitted element values are the little-endian values of the
consecutive `d`-byte groups. -/
theorem wordsOf_eq_groups (d : Nat) (hd : 0 < d) (buf : List Nat)
    (hb : ∀ b ∈ buf, b < 256) :
    wordsOf (8 * d) buf = (groupsOf d buf).map leVal := by
  rw [wordsOf, emitToks, emitLoop_groups d hd buf.length buf le_rfl hb 0 false true,
    emitGroups_words]

/-- The number of groups is the rounded-up quotient. -/
theorem groupsOf_length (d : Nat) (hd : 0 < d) :
    ∀ (n : Nat) (l : List Nat), l.length ≤ n →
      (groupsOf d l).length = (l.length + (d - 1)) / d := by
  intro n
  induction n with
  | zero =>
    intro l hn
    have hl : l = [] := List.length_eq_zero.mp (Nat.le_zero.mp hn)
    subst hl
    rw [groupsOf]
    simp [Nat.div_eq_of_lt (by omega : d - 1 < d)]
  | succ n ih =>
    intro l hn
    match l with
    | [] =>
      rw [groupsOf]
      simp [Nat.div_eq_of_lt (by omega : d - 1 < d)]
    | x :: xs =>
      rw [groupsOf_cons d hd x xs, List.length_cons,
        ih ((x :: xs).drop d)
          (by simp only [List.length_drop, List.length_cons]
              simp only [List.length_cons] at hn; omega)]
      simp only [List.length_drop, List.length_cons]
      rcases le_or_lt d (xs.length + 1) with hc | hc
      · have h1 : xs.length + 1 - d + (d - 1) + d = xs.length + 1 + (d - 1) := by omega
        rw [← h1, Nat.add_div_right _ hd]
      · have h2 : xs.length + 1 - d = 0 := by omega
        rw [h2, Nat.zero_add, Nat.div_eq_of_lt (by omega : d - 1 < d)]
        have h3 : (xs.length + 1 + (d - 1)) / d = 1 :=
          Nat.div_eq_of_lt_le (by omega) (by omega)
        rw [h3]

/-- Every group is nonempty, no longer than `d`, and drawn from `l`. -/
theorem groupsOf_mem (d : Nat) (hd : 0 < d) :
    ∀ (n : Nat) (l : List Nat), l.length ≤ n → ∀ g ∈ groupsOf d l,
      (0 < g.length ∧ g.length ≤ d) ∧ ∀ b ∈ g, b ∈ l := by
  intro n
  induction n with
  | zero =>
    intro l hn g hg
    have hl : l = [] := List.length_eq_zero.mp (Nat.le_zero.mp hn)
    subst hl
    rw [groupsOf] at hg
    simp at hg
  | succ n ih =>
    intro l hn g hg
    match l with
    | [] => rw [groupsOf] at hg; simp at hg
    | x :: xs =>
      rw [groupsOf_cons d hd x xs] at hg
      rcases List.mem_cons.mp hg with rfl | hg2
      · refine ⟨⟨?_, ?_⟩, fun b hbm => List.take_subset d (x :: xs) hbm⟩
        · simp only [List.length_take, List.length_cons]; omega
        · simp only [List.length_take, List.length_cons]; omega
      · have := ih ((x :: xs).drop d)
          (by simp only [List.length_drop, List.length_cons]
              simp only [List.length_cons] at hn; omega) g hg2
        exact ⟨this.1, fun b hbm => List.drop_subset d (x :: xs) (this.2 b hbm)⟩

/-- A little-endian group value is below `256 ^ length`. -/
theorem leVal_lt (g : List Nat) (hb : ∀ b ∈ g, b < 256) :
    leVal g < 256 ^ g.length := by
  induction g with
  | nil => simp [leVal]
  | cons b g ih =>
    have h1 := ih (fun x hx => hb x (List.mem_cons_of_mem b hx))
    have h2 : b < 256 := hb b (by simp)
    rw [leVal, List.length_cons, Nat.pow_succ]
    calc b + 256 * leVal g < 256 * (leVal g + 1) := by omega
      _ ≤ 256 * 256 ^ g.length := Nat.mul_le_mul_left 256 (by omega)
      _ = 256 ^ g.length * 256 := Nat.mul_comm _ _

/-- Every emitted word value is below `2 ^ bitsize` when the bitsize is
a multiple-of-8 word width. -/
theorem wordsOf_lt (d : Nat) (hd : 0 < d) (buf : List Nat)
    (hb : ∀ b ∈ buf, b < 256) :
    ∀ v ∈ wordsOf (8 * d) buf, v < 256 ^ d := by
  intro v hv
  rw [wordsOf_eq_groups d hd buf hb] at hv
  obtain ⟨g, hg, rfl⟩ := List.mem_map.mp hv
  have hmem := groupsOf_mem d hd buf.length buf le_rfl g hg
  calc leVal g < 256 ^ g.length := leVal_lt g (fun b hbm => hb b (hmem.2 b hbm))
    _ ≤ 256 ^ d := Nat.pow_le_pow_right (by omega) hmem.1.2

/-- With enough fuel, the digit extraction emits at most `k` digits for
a value below `16 ^ k`. -/
theorem hexCharsGo_length_le :
    ∀ (fuel k n : Nat), 0 < k → n < 16 ^ k → n < fuel →
      (hexCharsGo fuel n).length ≤ k := by
  intro fuel
  induction fuel with
  | zero => intro k n _ _ h; omega
  | succ fuel ih =>
    intro k n hk hn hfuel
    rw [hexCharsGo]
    by_cases h : n < 16
    · rw [if_pos h]; simpa using hk
    · rw [if_neg h]
      have hk2 : 0 < k - 1 := by
        rcases Nat.lt_or_ge k 2 with hk1 | hk1
        · have hk1' : k = 1 := by omega
          subst hk1'
          rw [pow_one] at hn
          omega
        · omega
      have hdiv : n / 16 < 16 ^ (k - 1) := by
        rw [Nat.div_lt_iff_lt_mul (by norm_num)]
        calc n < 16 ^ k := hn
          _ = 16 ^ (k - 1) * 16 := by
            rw [← Nat.pow_succ]
            congr 1
            omega
      have hlt : n / 16 < fuel := by
        have h1 : n / 16 < n := Nat.div_lt_self (by omega) (by norm_num)
        omega
      have := ih (k - 1) (n / 16) hk2 hdiv hlt
      simp only [List.length_append, List.length_cons, List.length_nil]
      omega

/-- `%x` prints at most `k` digits for a value below `16 ^ k`. -/
theorem hexChars_length_le :
    ∀ (k : Nat), 0 < k → ∀ n, n < 16 ^ k → (hexChars n).length ≤ k := by
  intro k hk n hn
  exact hexCharsGo_length_le (n + 1) k n hk hn (by omega)

/-- `printf("0x%0Wx", n)` prints exactly `2 + W` characters when the
digit count does not exceed the field width. -/
theorem printfHex_length (width n : Nat) (h : (hexChars n).length ≤ width) :
    (printfHex width n).length = 2 + width := by
  rw [printfHex]
  show (_ : List Char).length = _
  simp only [List.length_cons, List.length_append, List.length_replicate]
  omega

/-- The rounded-up quotient is the least `m` with `L ≤ m * d`. -/
theorem ceil_galois (d L m : Nat) (hd : 0 < d) :
    (L + (d - 1)) / d ≤ m ↔ L ≤ m * d := by
  constructor
  · intro h
    have h1 := (Nat.div_lt_iff_lt_mul hd).mp (Nat.lt_succ_of_le h)
    simp only [Nat.succ_eq_add_one] at h1
    have h2 : (m + 1) * d = m * d + d := by ring
    rw [h2] at h1
    omega
  · intro h
    have h1 : L + (d - 1) < m * d + d := by omega
    have h2 : m * d + d = (m + 1) * d := by ring
    rw [h2] at h1
    have := (Nat.div_lt_iff_lt_mul hd).mpr h1
    omega

/-- `bitsize >> 3` is division by 8. -/
theorem shiftRight_three (w : Nat) : w >>> 3 = w / 8 := by
  rw [Nat.shiftRight_eq_div_pow]

/-- Taking `a + b` elements of an append whose left part has length `a`. -/
theorem take_append_len {α : Type} (l₁ l₂ : List α) (a b : Nat)
    (h : l₁.length = a) : (l₁ ++ l₂).take (a + b) = l₁ ++ l₂.take b := by
  subst h
  exact List.take_append b

/-- The `d` little-endian bytes of 0 are `d` zeros. -/
theorem leBytes_zero : ∀ d : Nat, leBytes d 0 = List.replicate d 0 := by
  intro d
  induction d with
  | zero => rfl
  | succ d ih => rw [leBytes, Nat.zero_mod, Nat.zero_div, ih]; rfl

/-- Unpacking the little-endian value of a group of at most `d` bytes
recovers the group followed by the zero padding. -/
theorem leBytes_leVal :
    ∀ (g : List Nat) (d : Nat), g.length ≤ d → (∀ b ∈ g, b < 256) →
      leBytes d (leVal g) = g ++ List.replicate (d - g.length) 0 := by
  intro g
  induction g with
  | nil => intro d _ _; rw [leVal, leBytes_zero]; rfl
  | cons b r ih =>
    intro d hlen hb
    have hb0 : b < 256 := hb b (by simp)
    obtain ⟨d', rfl⟩ : ∃ d', d = d' + 1 := ⟨d - 1, by simp at hlen; omega⟩
    rw [leVal, leBytes]
    have hmod : (b + 256 * leVal r) % 256 = b := by
      rw [Nat.add_mul_mod_self_left, Nat.mod_eq_of_lt hb0]
    have hdiv : (b + 256 * leVal r) / 256 = leVal r := by
      rw [Nat.add_mul_div_left _ _ (by norm_num : (0 : Nat) < 256),
        Nat.div_eq_of_lt hb0, Nat.zero_add]
    rw [hmod, hdiv, ih d' (by simp at hlen; omega)
      (fun x hx => hb x (List.mem_cons_of_mem b hx))]
    simp [Nat.succ_sub_succ]

/-- Unpacking the grouped little-endian words and truncating to the
original length recovers the byte buffer. -/
theorem unpack_groups (d : Nat) (hd : 0 < d) :
    ∀ (n : Nat) (l : List Nat), l.length ≤ n → (∀ b ∈ l, b < 256) →
      unpackWords d ((groupsOf d l).map leVal) l.length = l := by
  intro n
  induction n with
  | zero =>
    intro l hn _
    have hl : l = [] := List.length_eq_zero.mp (Nat.le_zero.mp hn)
    subst hl
    rfl
  | succ n ih =>
    intro l hn hb
    match l with
    | [] => rfl
    | x :: xs =>
      rw [groupsOf_cons d hd x xs, List.map_cons]
      rw [unpackWords, flattenBytes]
      have htb : ∀ b ∈ (x :: xs).take d, b < 256 :=
        fun b hbm => hb b (List.take_subset d (x :: xs) hbm)
      rcases le_or_lt d (x :: xs).length with hcase | hcase
      · have hglen : ((x :: xs).take d).length = d := by
          simp only [List.length_take, List.length_cons]
          simp only [List.length_cons] at hcase
          omega
        rw [leBytes_leVal ((x :: xs).take d) d (by omega) htb, hglen]
        simp only [Nat.sub_self, List.replicate_zero, List.append_nil]
        have hlen2 : (x :: xs).length = d + ((x :: xs).length - d) := by omega
        rw [hlen2, take_append_len _ _ d ((x :: xs).length - d) hglen]
        have hrec := ih ((x :: xs).drop d)
          (by simp only [List.length_drop, List.length_cons]
              simp only [List.length_cons] at hn; omega)
          (fun b hbm => hb b (List.drop_subset d (x :: xs) hbm))
        rw [unpackWords, List.length_drop] at hrec
        rw [hrec, List.take_append_drop]
      · have htake : (x :: xs).take d = x :: xs := List.take_of_length_le (by omega)
        have hdrop : (x :: xs).drop d = [] := List.drop_eq_nil_of_le (by omega)
        rw [htake, hdrop, leBytes_leVal (x :: xs) d (by omega) hb]
        rw [groupsOf]
        simp only [List.map_nil, flattenBytes, List.append_nil]
        exact List.take_left _ _

/-- The separators with decided flags are the conditional tokens. -/
theorem sepToks_decide (P Q : Prop) [Decidable P] [Decidable Q] :
    sepToks (decide P) (decide Q) =
      (if P then [Tok.comma] else []) ++ (if Q then [Tok.newline] else []) := by
  by_cases hP : P <;> by_cases hQ : Q <;> simp [sepToks, hP, hQ]

/-- The group emission follows the spec's row-layout rule: word `k` is
preceded by a comma iff `k > 0` and by a line break iff `k * d ≡ 0`
modulo 16. -/
theorem emitGroups_specLayout (d : Nat) (hd : 0 < d) :
    ∀ (n : Nat) (l : List Nat), l.length ≤ n → ∀ k : Nat,
      emitGroups (k * d) (decide (0 < k)) (decide (k * d % 16 = 0)) (groupsOf d l) =
        specLayout d k ((groupsOf d l).map leVal) := by
  intro n
  induction n with
  | zero =>
    intro l hn k
    have hl : l = [] := List.length_eq_zero.mp (Nat.le_zero.mp hn)
    subst hl
    simp [groupsOf, emitGroups, specLayout]
  | succ n ih =>
    intro l hn k
    match l with
    | [] => simp [groupsOf, emitGroups, specLayout]
    | x :: xs =>
      rw [groupsOf_cons d hd x xs, List.map_cons, emitGroups, specLayout,
        sepToks_decide]
      rcases le_or_lt d (x :: xs).length with hcase | hcase
      · have hglen : ((x :: xs).take d).length = d := by
          simp only [List.length_take, List.length_cons]
          simp only [List.length_cons] at hcase
          omega
        have hidx : k * d + ((x :: xs).take d).length = (k + 1) * d := by
          rw [hglen]; ring
        rw [hidx]
        have htrue : (true : Bool) = decide (0 < k + 1) := by simp
        have hrec := ih ((x :: xs).drop d)
          (by simp only [List.length_drop, List.length_cons]
              simp only [List.length_cons] at hn; omega) (k + 1)
        rw [htrue, hrec]
      · have hdrop : (x :: xs).drop d = [] := List.drop_eq_nil_of_le (by omega)
        rw [hdrop, groupsOf]
        simp [emitGroups, specLayout]

/-- The full emission, from the initial state, follows the spec layout. -/
theorem emitToks_spec (d : Nat) (hd : 0 < d) (buf : List Nat)
    (hb : ∀ b ∈ buf, b < 256) :
    emitToks (8 * d) buf = specLayout d 0 (wordsOf (8 * d) buf) := by
  calc emitToks (8 * d) buf
      = emitGroups 0 false true (groupsOf d buf) :=
        emitLoop_groups d hd buf.length buf le_rfl hb 0 false true
    _ = emitGroups (0 * d) (decide (0 < 0)) (decide (0 * d % 16 = 0)) (groupsOf d buf) := by
        norm_num
    _ = specLayout d 0 ((groupsOf d buf).map leVal) :=
        emitGroups_specLayout d hd buf.length buf le_rfl 0
    _ = specLayout d 0 (wordsOf (8 * d) buf) := by
        rw [wordsOf_eq_groups d hd buf hb]

/-! ### Claim theorems -/

/-- C1: for every word width w ∈ {8,16,32} and every byte buffer of
length L, the element count printed inside the array brackets
(`array_size`, line 532, also printed as the `<symbol>_size` constant or
macro at lines 573-576) is the number of words the loop emits, equals
`(L + (w/8 - 1)) / (w/8)`, and is the least `m` with `L ≤ m * (w/8)` —
that is, `⌈L / (w/8)⌉`. -/
theorem elementCount_eq_ceil (w : Nat) (buf : List Nat)
    (hw : w = 8 ∨ w = 16 ∨ w = 32) (hb : ∀ b ∈ buf, b < 256) :
    (wordsOf w buf).length = array_size w buf.length ∧
    array_size w buf.length = (buf.length + (w / 8 - 1)) / (w / 8) ∧
    (∀ m : Nat, array_size w buf.length ≤ m ↔ buf.length ≤ m * (w / 8)) := by
  obtain ⟨d, hd0, rfl⟩ : ∃ d, 0 < d ∧ w = 8 * d := by
    rcases hw with rfl | rfl | rfl
    · exact ⟨1, by norm_num⟩
    · exact ⟨2, by norm_num⟩
    · exact ⟨4, by norm_num⟩
  have h8 : 8 * d / 8 = d := by omega
  have hsz : array_size (8 * d) buf.length = (buf.length + (d - 1)) / d := by
    rw [array_size, shiftRight_three, h8]
  refine ⟨?_, ?_, ?_⟩
  · rw [wordsOf_eq_groups d hd0 buf hb, List.length_map,
      groupsOf_length d hd0 buf.length buf le_rfl, hsz]
  · rw [hsz, h8]
  · intro m
    rw [hsz, h8]
    exact ceil_galois d buf.length m hd0

/-- Witness for C1 at width 16 on a 3-byte buffer: 2 elements. -/
theorem elementCount_eq_ceil_witness :
    (wordsOf 16 [1, 2, 3]).length = array_size 16 ([1, 2, 3] : List Nat).length ∧
    array_size 16 ([1, 2, 3] : List Nat).length =
      (([1, 2, 3] : List Nat).length + (16 / 8 - 1)) / (16 / 8) ∧
    (∀ m : Nat, array_size 16 ([1, 2, 3] : List Nat).length ≤ m ↔
      ([1, 2, 3] : List Nat).length ≤ m * (16 / 8)) :=
  elementCount_eq_ceil 16 [1, 2, 3] (by decide) (by decide)

/-- C2: every emitted word is the little-endian value of its group of
`w/8` consecutive bytes (the short final group keeps its missing
high-order bytes at zero), every emitted word is rendered at the full
fixed hex width `2 + w/4` characters, and the 3-byte input
`[0x01, 0x02, 0x03]` at width 16 yields `0x0201` and `0x0003`. -/
theorem words_littleEndian (w : Nat) (buf : List Nat)
    (hw : w = 8 ∨ w = 16 ∨ w = 32) (hb : ∀ b ∈ buf, b < 256) :
    wordsOf w buf = (groupsOf (w / 8) buf).map leVal ∧
    (∀ v ∈ wordsOf w buf, (tokStr w (Tok.word v)).length = 2 + w / 4) ∧
    wordsOf 16 [1, 2, 3] = [0x0201, 0x0003] := by
  refine ⟨?_, ?_, by decide⟩
  · rcases hw with rfl | rfl | rfl
    · simpa using wordsOf_eq_groups 1 (by norm_num) buf hb
    · simpa using wordsOf_eq_groups 2 (by norm_num) buf hb
    · simpa using wordsOf_eq_groups 4 (by norm_num) buf hb
  · rcases hw with rfl | rfl | rfl
    · intro v hv
      have hlt : v < 256 ^ 1 := wordsOf_lt 1 (by norm_num) buf hb v (by simpa using hv)
      have hhex : (hexChars v).length ≤ 2 :=
        hexChars_length_le 2 (by norm_num) v (by norm_num at hlt ⊢; omega)
      have ht : tokStr 8 (Tok.word v) = printfHex 2 v := rfl
      rw [ht, printfHex_length 2 v hhex]
    · intro v hv
      have hlt : v < 256 ^ 2 := wordsOf_lt 2 (by norm_num) buf hb v (by simpa using hv)
      have hhex : (hexChars v).length ≤ 4 :=
        hexChars_length_le 4 (by norm_num) v (by norm_num at hlt ⊢; omega)
      have ht : tokStr 16 (Tok.word v) = printfHex 4 v := rfl
      rw [ht, printfHex_length 4 v hhex]
    · intro v hv
      have hlt : v < 256 ^ 4 := wordsOf_lt 4 (by norm_num) buf hb v (by simpa using hv)
      have hhex : (hexChars v).length ≤ 8 :=
        hexChars_length_le 8 (by norm_num) v (by norm_num at hlt ⊢; omega)
      have ht : tokStr 32 (Tok.word v) = printfHex 8 v := rfl
      rw [ht, printfHex_length 8 v hhex]

/-- Witness for C2 at width 16 on the 3-byte scenario input. -/
theorem words_littleEndian_witness :
    wordsOf 16 [1, 2, 3] = (groupsOf (16 / 8) [1, 2, 3]).map leVal ∧
    (∀ v ∈ wordsOf 16 [1, 2, 3], (tokStr 16 (Tok.word v)).length = 2 + 16 / 4) ∧
    wordsOf 16 [1, 2, 3] = [0x0201, 0x0003] :=
  words_littleEndian 16 [1, 2, 3] (by decide) (by decide)

/-- C3: packing then unpacking — splitting every emitted word into its
`w/8` little-endian bytes and dropping the zero padding of the final
short word by truncating to the original length — reproduces the input
bytes exactly, for every length and every width in {8,16,32}. -/
theorem pack_unpack_roundtrip (w : Nat) (buf : List Nat)
    (hw : w = 8 ∨ w = 16 ∨ w = 32) (hb : ∀ b ∈ buf, b < 256) :
    unpackWords (w / 8) (wordsOf w buf) buf.length = buf := by
  rcases hw with rfl | rfl | rfl
  · have h := unpack_groups 1 (by norm_num) buf.length buf le_rfl hb
    rw [← wordsOf_eq_groups 1 (by norm_num) buf hb] at h
    simpa using h
  · have h := unpack_groups 2 (by norm_num) buf.length buf le_rfl hb
    rw [← wordsOf_eq_groups 2 (by norm_num) buf hb] at h
    simpa using h
  · have h := unpack_groups 4 (by norm_num) buf.length buf le_rfl hb
    rw [← wordsOf_eq_groups 4 (by norm_num) buf hb] at h
    simpa using h

/-- Witness for C3 at width 32 on a 5-byte buffer (short final group). -/
theorem pack_unpack_roundtrip_witness :
    unpackWords (32 / 8) (wordsOf 32 [10, 20, 30, 40, 50])
      ([10, 20, 30, 40, 50] : List Nat).length = [10, 20, 30, 40, 50] :=
  pack_unpack_roundtrip 32 [10, 20, 30, 40, 50] (by decide) (by decide)

/-- C4: the emitted token stream equals the spec layout — a line break
(rendered `"\n\t"`, one break plus one indent) precedes word `k` exactly
when the `k * (w/8)` bytes consumed before it are a multiple of 16, so
the break interval in words is `16 / (w/8)`; the first word (`k = 0`)
always starts on a fresh line, and a comma precedes every word except
the first. -/
theorem newline_layout (w : Nat) (buf : List Nat)
    (hw : w = 8 ∨ w = 16 ∨ w = 32) (hb : ∀ b ∈ buf, b < 256) :
    emitToks w buf = specLayout (w / 8) 0 (wordsOf w buf) ∧
    tokStr w Tok.newline = "\n\t" := by
  refine ⟨?_, rfl⟩
  rcases hw with rfl | rfl | rfl
  · simpa using emitToks_spec 1 (by norm_num) buf hb
  · simpa using emitToks_spec 2 (by norm_num) buf hb
  · simpa using emitToks_spec 4 (by norm_num) buf hb

/-- Witness for C4 at width 16 on the 3-byte scenario input. -/
theorem newline_layout_witness :
    emitToks 16 [1, 2, 3] = specLayout (16 / 8) 0 (wordsOf 16 [1, 2, 3]) ∧
    tokStr 16 Tok.newline = "\n\t" :=
  newline_layout 16 [1, 2, 3] (by decide) (by decide)

/-! ### Argument-parsing claims -/

/-- The parsing loop on an exhausted argument list. -/
theorem parseLoop_nil (o : Opts) : parseLoop [] o = .ok o := rfl

/-- A successfully parsed option record always carries a valid bitsize:
every assignment to `bitsize` inside the loop is immediately validated
against {8,16,32}, and the initial value is 8. -/
theorem bits_inv :
    ∀ (n : Nat) (args : List String) (o o2 : Opts),
      args.length ≤ n → (o.bitsize = 8 ∨ o.bitsize = 16 ∨ o.bitsize = 32) →
      parseLoop args o = .ok o2 →
      (o2.bitsize = 8 ∨ o2.bitsize = 16 ∨ o2.bitsize = 32) := by
  intro n
  induction n with
  | zero =>
    intro args o o2 hn hb hp
    have h : args = [] := List.length_eq_zero.mp (Nat.le_zero.mp hn)
    subst h
    rw [parseLoop_nil] at hp
    cases hp
    exact hb
  | succ n ih =>
    intro args o o2 hn hb hp
    match args with
    | [] =>
      rw [parseLoop_nil] at hp
      cases hp
      exact hb
    | t :: rest =>
      simp only [List.length_cons] at hn
      rw [parseLoop_cons] at hp
      simp only [] at hp
      repeat' split at hp
      all_goals (try cases hp)
      all_goals (refine ih _ _ o2 ?_ ?_ hp)
      all_goals (try (simpa using hb))
      all_goals (try omega)
      all_goals (try (simp only [List.length_cons] at hn ⊢; omega))

/-- When no argument matches the `-b`/`--bits` prefixes, `bitsize` is
never assigned and keeps its incoming value. -/
theorem bits_default :
    ∀ (n : Nat) (args : List String) (o o2 : Opts),
      args.length ≤ n →
      (∀ a ∈ args, strncmp0 a ("-b") = false ∧ strncmp0 a ("--bits") = false) →
      parseLoop args o = .ok o2 → o2.bitsize = o.bitsize := by
  intro n
  induction n with
  | zero =>
    intro args o o2 hn _ hp
    have h : args = [] := List.length_eq_zero.mp (Nat.le_zero.mp hn)
    subst h
    rw [parseLoop_nil] at hp
    cases hp
    rfl
  | succ n ih =>
    intro args o o2 hn hno hp
    match args with
    | [] =>
      rw [parseLoop_nil] at hp
      cases hp
      rfl
    | t :: rest =>
      obtain ⟨ht1, ht2⟩ := hno t (by simp)
      simp only [List.length_cons] at hn
      rw [parseLoop_cons] at hp
      simp only [] at hp
      repeat' split at hp
      all_goals (try cases hp)
      all_goals (try (simp only [ht1, ht2, false_or, or_self, Bool.false_eq_true] at *))
      all_goals (refine Eq.trans (ih _ _ o2 ?_ ?_ hp) ?_)
      all_goals (try rfl)
      all_goals (try (simp only [List.length_cons] at hn ⊢; omega))
      all_goals (try omega)
      all_goals (intro a ha; refine hno a ?_; simp [ha])

/-- A file system with a single one-byte file named `"in"`. -/
def fsIn : String → Option (List Nat) := fun n => if n = "in" then some [1] else none

/-- The empty file system. -/
def fsEmpty : String → Option (List Nat) := fun _ => none

/-- C5 counterexample: the command line `bin2c in -x` carries the
unknown flag `-x`, yet the program exits with status 0 and writes one
output file — it does not fail with status 1, and it does produce
output.  (The parsing loop has no fallback branch for an argument that
starts with `-` and matches no recognized option.) -/
theorem unknown_flag_accepted_cex :
    (run ["in", "-x"] fsIn).1 = 0 ∧ (run ["in", "-x"] fsIn).2.length = 1 :=
  ⟨rfl, rfl⟩

/-- C5 (amended): an argument that starts with `-` but is none of the
recognized option forms — not `-a`/`--append`, not a `-b`/`--bits`
prefix, not `-d`/`--define`, not `-h`/`--help`/`-?`, not a
`-l`/`--label` prefix, not `-m`/`--mutable`, not `-t`/`--text`, not
`-z`/`--zero` — is silently skipped by the argument-parsing loop: the
parse continues on the remaining arguments with the options unchanged,
and the program proceeds as if the flag were absent.  No diagnostic is
printed and the exit status is not affected. -/
theorem unknown_flag_ignored (t : String) (rest : List String) (o : Opts)
    (hdash : charAtNul t 0 = '-')
    (h1 : t ≠ "-a") (h2 : t ≠ "--append")
    (h3 : strncmp0 t ("-b") = false) (h4 : strncmp0 t ("--bits") = false)
    (h5 : t ≠ "-d") (h6 : t ≠ "--define")
    (h7 : t ≠ "-h") (h8 : t ≠ "--help") (h9 : t ≠ "-?")
    (h10 : strncmp0 t ("-l") = false) (h11 : strncmp0 t ("--label") = false)
    (h12 : t ≠ "-m") (h13 : t ≠ "--mutable")
    (h14 : t ≠ "-t") (h15 : t ≠ "--text")
    (h16 : t ≠ "-z") (h17 : t ≠ "--zero") :
    parseLoop (t :: rest) o = parseLoop rest o := by
  rw [parseLoop_cons, if_pos hdash, if_neg (by simp [h1, h2]),
    if_neg (by simp [h3, h4]), if_neg (by simp [h5, h6]),
    if_neg (by simp [h7, h8, h9]), if_neg (by simp [h10, h11]),
    if_neg (by simp [h12, h13]), if_neg (by simp [h14, h15]),
    if_neg (by simp [h16, h17])]

/-- Witness for the amended C5: `-x` is skipped. -/
theorem unknown_flag_ignored_witness :
    parseLoop ["-x", "in"] Opts.init = parseLoop ["in"] Opts.init :=
  unknown_flag_ignored "-x" ["in"] Opts.init (by decide) (by decide) (by decide)
    (by decide) (by decide) (by decide) (by decide) (by decide) (by decide)
    (by decide) (by decide) (by decide) (by decide) (by decide) (by decide)
    (by decide) (by decide) (by decide)

/-- C6: a `--bits` option whose value is outside {8,16,32} makes the
parsing loop stop at once with the invalid-bit-size fatal error, no
matter what arguments follow; any successful parse carries a valid
bitsize; and whenever parsing fails, `run` exits with status 1 having
performed no write at all — the output file is neither created nor
modified, because the fatal exit happens during argument validation,
before any file is opened. -/
theorem invalid_bits_fatal :
    (∀ (v : String) (rest : List String) (o : Opts),
      toCUInt (atoi v) ≠ 8 → toCUInt (atoi v) ≠ 16 → toCUInt (atoi v) ≠ 32 →
      parseLoop ("--bits" :: v :: rest) o = .error .invalidBits) ∧
    (∀ (args : List String) (o2 : Opts), parseLoop args Opts.init = .ok o2 →
      o2.bitsize = 8 ∨ o2.bitsize = 16 ∨ o2.bitsize = 32) ∧
    (∀ (args : List String) (e : FatalErr) (fs : String → Option (List Nat)),
      parseLoop args Opts.init = .error e → run args fs = (1, [])) := by
  refine ⟨?_, ?_, ?_⟩
  · intro v rest o h8 h16 h32
    have hred : parseLoop ("--bits" :: v :: rest) o =
        (if toCUInt (atoi v) ≠ 8 ∧ toCUInt (atoi v) ≠ 16 ∧ toCUInt (atoi v) ≠ 32
         then (.error .invalidBits : Except FatalErr Opts)
         else parseLoop rest { o with bitsize := toCUInt (atoi v) }) := rfl
    rw [hred, if_pos ⟨h8, h16, h32⟩]
  · intro args o2 hp
    exact bits_inv args.length args Opts.init o2 le_rfl (Or.inl rfl) hp
  · intro args e fs hp
    match args with
    | [] =>
      rw [parseLoop_nil] at hp
      cases hp
    | a :: args2 =>
      simp [run, hp]

/-- Witness for C6: `--bits 12` fails during parsing and `run` writes
nothing. -/
theorem invalid_bits_fatal_witness :
    parseLoop ("--bits" :: "12" :: ([] : List String)) Opts.init =
      .error .invalidBits ∧
    run ["--bits", "12"] fsEmpty = (1, []) :=
  ⟨invalid_bits_fatal.1 "12" [] Opts.init (by decide) (by decide) (by decide),
   invalid_bits_fatal.2.2 ["--bits", "12"] .invalidBits fsEmpty
     (invalid_bits_fatal.1 "12" [] Opts.init (by decide) (by decide) (by decide))⟩

/-! ### Loader, sanitization, default names, default width -/

/-- C7: when `zero_terminate` is requested, exactly one zero byte is
appended after the file contents before packing (`calloc` zero-fills the
one extra slot that `fread` does not overwrite), so the effective length
grows by one; an empty input with `--zero` at width 8 yields the single
element 0 — rendered `0x00` — and the size constant 1. -/
theorem zero_terminator_appended :
    (∀ bytes : List Nat, loadBuffer bytes true = bytes ++ [0]) ∧
    (∀ bytes : List Nat, (loadBuffer bytes true).length = bytes.length + 1) ∧
    wordsOf 8 (loadBuffer [] true) = [0] ∧
    array_size 8 (loadBuffer [] true).length = 1 ∧
    tokStr 8 (Tok.word 0) = "0x00" :=
  ⟨fun _ => rfl, fun bytes => by simp [loadBuffer], rfl, rfl, rfl⟩

/-- Modelled from the spec: whether character `c` is legal at position
`i` of a C identifier (first position: letter or underscore; later
positions: alphanumeric or underscore). -/
def legalAt (i : Nat) (c : Char) : Bool :=
  if i = 0 then isalpha c || c = '_' else isalnum c || c = '_'

/-- Modelled from the spec: a nonempty list of characters that is a
legal C identifier. -/
def isLegalIdent : List Char → Bool
  | [] => false
  | c :: r => (isalpha c || c = '_') && r.all (fun x => isalnum x || x = '_')

/-- The `while` loop's substitution fixes nothing the first-character
fix already produced. -/
theorem keepTail_keepFirst (c : Char) : keepTail (keepFirst c) = keepFirst c := by
  by_cases h : (isalpha c || c = '_') = true
  · rw [keepFirst, if_pos h]
    rcases Bool.or_eq_true_iff.mp h with ha | hu
    · rw [keepTail, if_pos (by rw [isalnum, ha]; simp)]
    · rw [keepTail, if_pos (by rw [hu]; simp)]
  · rw [keepFirst, if_neg h, keepTail, if_pos (by simp)]

/-- C8: sanitization maps each character independently — a character
legal at its position is kept, any other is replaced by `'_'` and never
dropped — so the output has exactly the input's length, position by
position, and an already-legal identifier is returned unchanged.  (The
empty symbol name is excluded: the C code's behaviour there is
undefined, it overwrites the NUL terminator.) -/
theorem sanitize_pointwise (l : List Char) (hne : l ≠ []) :
    (sanitize l).length = l.length ∧
    (∀ i : Nat, (sanitize l)[i]? =
      (l[i]?).map fun c => if legalAt i c then c else '_') ∧
    (isLegalIdent l = true → sanitize l = l) := by
  obtain ⟨c, r, rfl⟩ : ∃ c r, l = c :: r := by
    cases l with
    | nil => exact absurd rfl hne
    | cons c r => exact ⟨c, r, rfl⟩
  refine ⟨by simp [sanitize], ?_, ?_⟩
  · intro i
    cases i with
    | zero =>
      have hred : (sanitize (c :: r))[0]? = some (keepTail (keepFirst c)) := by
        rw [sanitize, List.map_cons, List.getElem?_cons_zero]
      have hred2 : ((c :: r)[0]?).map (fun c => if legalAt 0 c then c else '_') =
          some (if legalAt 0 c then c else '_') := by
        rw [List.getElem?_cons_zero, Option.map_some']
      rw [hred, hred2, keepTail_keepFirst]
      by_cases h : (isalpha c || c = '_') = true <;>
        simp [keepFirst, legalAt, h]
    | succ i =>
      show (List.map keepTail (keepFirst c :: r))[i + 1]? = _
      simp only [List.map_cons, List.getElem?_cons_succ, List.getElem?_map]
      cases hri : r[i]? with
      | none => rfl
      | some x => simp [keepTail, legalAt]
  · intro hleg
    rw [isLegalIdent, Bool.and_eq_true] at hleg
    obtain ⟨h1, h2⟩ := hleg
    have hmem : ∀ x ∈ r, keepTail x = x := by
      intro x hx
      have hx2 := (List.all_eq_true.mp h2) x hx
      simp only at hx2
      rw [keepTail, if_pos hx2]
    calc sanitize (c :: r) = keepTail (keepFirst c) :: List.map keepTail r := rfl
      _ = c :: List.map keepTail r := by
          rw [keepTail_keepFirst, keepFirst, if_pos h1]
      _ = c :: r := by
          rw [List.map_congr_left hmem]
          simp

/-- Witness for C8 on the 4-character name `9a.b`: the digit in first
position and the dot become underscores, the rest is kept. -/
theorem sanitize_pointwise_witness :
    (sanitize ['9', 'a', '.', 'b']).length = (['9', 'a', '.', 'b'] : List Char).length ∧
    (∀ i : Nat, (sanitize ['9', 'a', '.', 'b'])[i]? =
      ((['9', 'a', '.', 'b'] : List Char)[i]?).map fun c =>
        if legalAt i c then c else '_') ∧
    (isLegalIdent ['9', 'a', '.', 'b'] = true →
      sanitize ['9', 'a', '.', 'b'] = ['9', 'a', '.', 'b']) :=
  sanitize_pointwise ['9', 'a', '.', 'b'] (by decide)

/-- C9 counterexample: for the input name `dir/file.bin` the default
output name keeps the extension — it is `dir/file.bin.h`, not the
`dir/file.h` the claim's rule (always replace the extension) predicts.
The source only strips the extension when the name has no path
separator (`strpbrk(f_outputname, "\\/") == NULL`, line 425). -/
theorem default_output_dir_cex :
    defaultOutputName "dir/file.bin" = "dir/file.bin.h" ∧
    (("dir/file.bin.h" : String) == "dir/file.h") = false :=
  ⟨rfl, rfl⟩

/-- C9 (amended): when the input name contains no path separator, the
default output name is the input with the extension after the last `.`
removed (unchanged when there is no dot) and `.h` appended; when the
input contains a `/` or `\`, the extension is not removed and `.h` is
simply appended to the whole name. -/
theorem default_output_name_spec (inp : String) :
    (inp.data.any isSep = false →
      defaultOutputName inp = String.mk (dropExt inp.data ++ (".h").data)) ∧
    (inp.data.any isSep = true →
      defaultOutputName inp = String.mk (inp.data ++ (".h").data)) := by
  constructor
  · intro hsep
    cases h : strrchrIdx inp.data '.' with
    | none => simp [defaultOutputName, dropExt, h]
    | some i => simp [defaultOutputName, dropExt, h, hsep]
  · intro hsep
    cases h : strrchrIdx inp.data '.' with
    | none => simp [defaultOutputName, dropExt, h]
    | some i => simp [defaultOutputName, dropExt, h, hsep]

/-- Witness for the amended C9: `file.bin` becomes `file.h`, while
`dir/file.bin` becomes `dir/file.bin.h`. -/
theorem default_output_name_spec_witness :
    defaultOutputName "file.bin" =
      String.mk (dropExt ("file.bin" : String).data ++ (".h").data) ∧
    defaultOutputName "dir/file.bin" =
      String.mk (("dir/file.bin" : String).data ++ (".h").data) :=
  ⟨(default_output_name_spec "file.bin").1 (by decide),
   (default_output_name_spec "dir/file.bin").2 (by decide)⟩

/-- Chunks of one byte are the singletons. -/
theorem groupsOf_one : ∀ l : List Nat, groupsOf 1 l = l.map (fun b => [b]) := by
  intro l
  induction l with
  | nil => rw [groupsOf]; rfl
  | cons x xs ih =>
    rw [groupsOf]
    simp only [Nat.sub_self, List.take_zero, List.drop_zero, List.map_cons]
    rw [ih]

/-- C10: with no `-b`/`--bits` argument on the command line, the parsed
word width keeps its default 8 (line 367); at width 8 every input byte
becomes exactly one array element with its own value, and each element
is rendered as `0x` plus two hex digits (four characters). -/
theorem default_bitsize_eight :
    (∀ (args : List String) (o2 : Opts),
      (∀ a ∈ args, strncmp0 a ("-b") = false ∧ strncmp0 a ("--bits") = false) →
      parseLoop args Opts.init = .ok o2 → o2.bitsize = 8) ∧
    (∀ buf : List Nat, (∀ b ∈ buf, b < 256) → wordsOf 8 buf = buf) ∧
    (∀ b : Nat, b < 256 → (tokStr 8 (Tok.word b)).length = 4) := by
  refine ⟨?_, ?_, ?_⟩
  · intro args o2 hno hp
    exact bits_default args.length args Opts.init o2 le_rfl hno hp
  · intro buf hb
    have h := wordsOf_eq_groups 1 (by norm_num) buf hb
    rw [groupsOf_one] at h
    simp only [List.map_map] at h
    have h2 : ∀ b ∈ buf, (leVal ∘ fun b => [b]) b = b := by
      intro b _
      simp [leVal]
    rw [List.map_congr_left h2] at h
    simpa using h
  · intro b hb
    have hhex : (hexChars b).length ≤ 2 :=
      hexChars_length_le 2 (by norm_num) b (by norm_num; omega)
    have ht : tokStr 8 (Tok.word b) = printfHex 2 b := rfl
    rw [ht, printfHex_length 2 b hhex]

/-- Witness for C10: `bin2c in -z` parses with bitsize 8; three bytes
give three elements; 255 renders in four characters (`0xff`). -/
theorem default_bitsize_eight_witness :
    ({ Opts.init with f_inputname := some "in", zero_terminate := true } : Opts).bitsize = 8 ∧
    wordsOf 8 [1, 2, 3] = [1, 2, 3] ∧
    (tokStr 8 (Tok.word 255)).length = 4 :=
  ⟨default_bitsize_eight.1 ["in", "-z"] _ (by decide) rfl,
   default_bitsize_eight.2.1 [1, 2, 3] (by decide),
   default_bitsize_eight.2.2 255 (by decide)⟩

end Bin2C
